import Mathlib

/-
Verification of the csv_combine tool (src/csv_combine.py): a shallow
embedding of the header-detection and file-combination logic, together
with theorems about its behaviour.

Modelling conventions:
* a `Line` is the sequence of characters a single `readline` call returns
  (terminator included); a file's content is its list of lines in order;
* the file system is a partial map `FilePath → Option (List Line)`;
  `none` means opening the file raises an I/O fault;
* `readline` past the end of a file returns the empty line, as in Python,
  which is modelled with `List.getD`;
* the run is represented as the list of file-open events it performs
  together with either the final `Outcome` or the error that aborted it.
-/

namespace CsvCombine

abbrev Line : Type := List Char

abbrev FilePath : Type := String

/-- The backslash character, written by code point to keep escapes explicit. -/
def bsChar : Char := Char.ofNat 92

/-- The newline character. -/
def nlChar : Char := Char.ofNat 10

/-- The carriage-return character. -/
def crChar : Char := Char.ofNat 13

/-- The single-quote character used by Python `repr` of a string. -/
def quChar : Char := Char.ofNat 39

/-- Models how Python `repr` escapes one character of a line: backslash,
newline, carriage return and the quote are escaped, other characters are
kept as they are. -/
def escChar (c : Char) : List Char :=
  if c = bsChar then [bsChar, bsChar]
  else if c = nlChar then [bsChar, 'n']
  else if c = crChar then [bsChar, 'r']
  else if c = quChar then [bsChar, quChar]
  else [c]

/-- Models Python `repr` of one line: a quote, the escaped characters, a
closing quote. -/
def reprLine (l : Line) : List Char :=
  quChar :: l.flatMap escChar ++ [quChar]

/-- Joining a list of strings with a newline separator, as
`"\n".join(...)` does in the source. -/
def joinNl : List (List Char) → List Char
  | [] => []
  | [x] => x
  | x :: y :: xs => x ++ nlChar :: joinNl (y :: xs)

/-- The comparison key the source builds for a list of header lines:
`"\n".join(repr(line) for line in lines)`. -/
def compareKey (ls : List Line) : List Char :=
  joinNl (ls.map reprLine)

/-- Left inverse of character escaping, used to prove `escChar` faithful. -/
def unescape : List Char → List Char
  | [] => []
  | [c] => [c]
  | c :: d :: rest =>
    if c = bsChar then
      (if d = 'n' then nlChar else if d = 'r' then crChar else d) :: unescape rest
    else
      c :: unescape (d :: rest)

/-- `Reader.get_header`: read one leading line from each of the two files;
if they are identical the header is that single line, otherwise it is
empty.  `readline` on an empty file returns the empty line. -/
def get_header (c1 c2 : List Line) : List Line :=
  let line1 := c1.headD []
  let line2 := c2.headD []
  if line1 = line2 then [line1] else []

/-- `Reader.get_header_by_lines`: call `readline` `line_count` times on the
file and collect every result; past the end of the file `readline` yields
the empty line. -/
def get_header_by_lines (c : List Line) (line_count : Nat) : List Line :=
  (List.range line_count).map (fun i => c.getD i [])

/-- The two domain errors `Reader.combine` raises before touching any file. -/
inductive ReaderError : Type
  | outfileIsInput : ReaderError
  | notEnoughFiles : ReaderError
deriving DecidableEq

/-- Everything that can abort a run: a domain `ReaderError` or an I/O fault
when opening the named file. -/
inductive CombineError : Type
  | readerError : ReaderError → CombineError
  | ioError : FilePath → CombineError
deriving DecidableEq

/-- File-open events of a run, in order. -/
inductive Event : Type
  | openRead : FilePath → Event
  | openWrite : FilePath → Event
deriving DecidableEq

/-- The data a successful run of `Reader.combine` has produced: the list of
header variants in creation order, the parallel list of the files filed
under each variant, the lines written to the output file in order, and the
data-line counter. -/
structure Outcome : Type where
  headers : List (List Line)
  header_files : List (List FilePath)
  output : List Line
  line_count : Nat
deriving DecidableEq

/-- First index in the header list whose comparison key equals `key`,
mirroring the `for number, defined_header in enumerate(headers)` loop with
its `break` on the repr-join comparison. -/
def findHeader (headers : List (List Line)) (key : List Char) : Option Nat :=
  match headers with
  | [] => none
  | h :: hs =>
    if compareKey h = key then some 0 else (findHeader hs key).map (· + 1)

/-- One header-assignment step of the per-file loop: file the name under
the first matching variant, or append a new group holding just this file. -/
def assign (headers : List (List Line)) (header_files : List (List FilePath))
    (current : List Line) (f : FilePath) :
    List (List Line) × List (List FilePath) :=
  match findHeader headers (compareKey current) with
  | some i => (headers, header_files.set i (header_files.getD i [] ++ [f]))
  | none => (headers ++ [current], header_files ++ [[f]])

/-- First matching group as the spec words it: variants are compared in
creation order by exact element-wise equality of the line sequences. -/
def findHeaderSpec (headers : List (List Line)) (current : List Line) : Option Nat :=
  match headers with
  | [] => none
  | h :: hs =>
    if h = current then some 0 else (findHeaderSpec hs current).map (· + 1)

/-- The assignment step as the spec words it: compare the candidate against
each existing group's variant in creation order using exact sequence
equality; on first match add the file there, otherwise create a new group
containing only this file. -/
def assignSpec (headers : List (List Line)) (header_files : List (List FilePath))
    (current : List Line) (f : FilePath) :
    List (List Line) × List (List FilePath) :=
  match findHeaderSpec headers current with
  | some i => (headers, header_files.set i (header_files.getD i [] ++ [f]))
  | none => (headers ++ [current], header_files ++ [[f]])

/-- The initial group membership lists (lines 108-120 of the source): in
auto-detect mode both comparison files are pre-assigned to group 0, in
forced mode only `files[0]` is. -/
def initHeaderFiles (f0 f1 : FilePath) (force : Option Nat) : List (List FilePath) :=
  match force with
  | none => [[f0, f1]]
  | some _ => [[f0]]

/-- The per-file loop of `Reader.combine`: open each file (an absent file
aborts with an I/O fault), read `hl` header-candidate lines, assign the
file to a header group, and append every remaining line to the output. -/
def loop (fs : FilePath → Option (List Line)) (hl : Nat) :
    List FilePath → List (List Line) → List (List FilePath) → List Line → Nat →
    List Event × Except CombineError Outcome
  | [], headers, header_files, out, cnt =>
    ([], Except.ok ⟨headers, header_files, out, cnt⟩)
  | f :: rest, headers, header_files, out, cnt =>
    match fs f with
    | none => ([Event.openRead f], Except.error (CombineError.ioError f))
    | some c =>
      let current := get_header_by_lines c hl
      let p := assign headers header_files current f
      let r := loop fs hl rest p.1 p.2 (out ++ c.drop hl) (cnt + (c.drop hl).length)
      (Event.openRead f :: r.1, r.2)

/-- `Reader.combine` over an already resolved file list: the two
precondition checks, header determination (reading `files[0]` and, in
auto-detect mode, `files[1]`), opening the output file, writing the
canonical header, and the per-file loop. -/
def combineRun (fs : FilePath → Option (List Line)) (files : List FilePath)
    (outfile : FilePath) (force : Option Nat) :
    List Event × Except CombineError Outcome :=
  if outfile ∈ files then
    ([], Except.error (CombineError.readerError ReaderError.outfileIsInput))
  else
    match files with
    | [] => ([], Except.error (CombineError.readerError ReaderError.notEnoughFiles))
    | [_] => ([], Except.error (CombineError.readerError ReaderError.notEnoughFiles))
    | f0 :: f1 :: rest =>
      match force with
      | none =>
        match fs f0 with
        | none => ([Event.openRead f0], Except.error (CombineError.ioError f0))
        | some c0 =>
          match fs f1 with
          | none =>
            ([Event.openRead f0, Event.openRead f1],
             Except.error (CombineError.ioError f1))
          | some c1 =>
            let h0 := get_header c0 c1
            let r := loop fs h0.length (f0 :: f1 :: rest) [h0]
              (initHeaderFiles f0 f1 none) h0 0
            (Event.openRead f0 :: Event.openRead f1 :: Event.openWrite outfile :: r.1,
             r.2)
      | some n =>
        match fs f0 with
        | none => ([Event.openRead f0], Except.error (CombineError.ioError f0))
        | some c0 =>
          let h0 := get_header_by_lines c0 n
          let r := loop fs h0.length (f0 :: f1 :: rest) [h0]
            (initHeaderFiles f0 f1 (some n)) h0 0
          (Event.openRead f0 :: Event.openWrite outfile :: r.1, r.2)

deriving instance DecidableEq for Except

/-- Code-point comparison of two character lists, the order Python `sorted`
uses on path strings. -/
def strLeAux : List Char → List Char → Bool
  | [], _ => true
  | _ :: _, [] => false
  | a :: as, b :: bs =>
    if a.val < b.val then true
    else if b.val < a.val then false
    else strLeAux as bs

/-- Lexicographic sorting of a path list, as Python `sorted` does. -/
def sortPaths (l : List FilePath) : List FilePath :=
  l.insertionSort (fun a b => strLeAux a.data b.data = true)

/-- `get_files`: expand every pattern with the glob function (each single
expansion sorted), concatenate, and sort the concatenation. -/
def get_files (globFn : String → List FilePath) (gs : List String) : List FilePath :=
  sortPaths (gs.flatMap (fun g => sortPaths (globFn g)))

/-- `Reader.combine` as called from the command line: the input list is
glob-resolved from the given patterns first. -/
def combineGlob (fs : FilePath → Option (List Line)) (globFn : String → List FilePath)
    (gs : List String) (outfile : FilePath) (force : Option Nat) :
    List Event × Except CombineError Outcome :=
  combineRun fs (get_files globFn gs) outfile force

/-- The header-candidate sequence the per-file loop reads from file `f`. -/
def candOf (fs : FilePath → Option (List Line)) (hl : Nat) (f : FilePath) : List Line :=
  get_header_by_lines ((fs f).getD []) hl

/-- A two-file example file system: "a" holds the lines "h" and "1", "b"
holds the lines "h" and "2"; every other path is absent. -/
def fsEx1 : FilePath → Option (List Line) := fun f =>
  if f = "a" then some [['h'], ['1']]
  else if f = "b" then some [['h'], ['2']]
  else none

/-- A file system agreeing with `fsEx1` on "a" and "b" but not elsewhere. -/
def fsEx2 : FilePath → Option (List Line) := fun f =>
  if f = "z" then some [['z']] else fsEx1 f

/-- The empty file system: opening any path faults. -/
def fsNone : FilePath → Option (List Line) := fun _ => none

/-- The outcome of combining "a" and "b" from `fsEx1` in auto-detect mode. -/
def outEx1 : Outcome :=
  ⟨[[['h']]], [["a", "b", "a", "b"]], [['h'], ['1'], ['2']], 2⟩

/-- The outcome of combining "a" and "b" from `fsEx1` with a forced header
length of 1. -/
def outEx4 : Outcome :=
  ⟨[[['h']]], [["a", "a", "b"]], [['h'], ['1'], ['2']], 2⟩

/-- A glob function under which only the pattern "out.csv" matches
anything (the existing file of the same name). -/
def globEx : String → List FilePath := fun g =>
  if g = "out.csv" then ["out.csv"] else []

/-! ### The repr-join comparison key agrees with structural equality -/

theorem unescape_escChar (c : Char) (l : List Char) :
    unescape (escChar c ++ l) = c :: unescape l := by
  by_cases h1 : c = bsChar
  · subst h1
    simp [escChar, unescape, show bsChar ≠ 'n' by decide, show bsChar ≠ 'r' by decide]
  by_cases h2 : c = nlChar
  · subst h2
    simp [escChar, unescape, show nlChar ≠ bsChar by decide]
  by_cases h3 : c = crChar
  · subst h3
    simp [escChar, unescape, show crChar ≠ bsChar by decide,
      show crChar ≠ nlChar by decide, show ('r' : Char) ≠ 'n' by decide]
  by_cases h4 : c = quChar
  · subst h4
    simp [escChar, unescape, show quChar ≠ bsChar by decide,
      show quChar ≠ nlChar by decide, show quChar ≠ crChar by decide,
      show quChar ≠ 'n' by decide, show quChar ≠ 'r' by decide]
  · cases l with
    | nil => simp [escChar, unescape, h1, h2, h3, h4]
    | cons d rest => simp [escChar, unescape, h1, h2, h3, h4]

theorem unescape_flatMap (l : List Char) : unescape (l.flatMap escChar) = l := by
  induction l with
  | nil => rfl
  | cons c l ih => rw [List.flatMap_cons, unescape_escChar, ih]

theorem flatMap_escChar_injective (a b : List Char)
    (h : a.flatMap escChar = b.flatMap escChar) : a = b := by
  rw [← unescape_flatMap a, h, unescape_flatMap]

theorem reprLine_injective : Function.Injective reprLine := by
  intro a b h
  unfold reprLine at h
  exact flatMap_escChar_injective a b
    (List.append_cancel_right (List.cons_injective h))

theorem nlChar_not_mem_escChar (c : Char) : nlChar ∉ escChar c := by
  by_cases h1 : c = bsChar
  · subst h1; decide
  by_cases h2 : c = nlChar
  · subst h2; decide
  by_cases h3 : c = crChar
  · subst h3; decide
  by_cases h4 : c = quChar
  · subst h4; decide
  · simp [escChar, h1, h2, h3, h4]
    exact fun h => h2 h.symm

theorem nlChar_not_mem_reprLine (l : Line) : nlChar ∉ reprLine l := by
  unfold reprLine
  intro h
  rcases List.mem_cons.mp h with h | h
  · exact absurd h (by decide)
  rcases List.mem_append.mp h with h | h
  · obtain ⟨c, _, hc⟩ := List.mem_flatMap.mp h
    exact nlChar_not_mem_escChar c hc
  · simp only [List.mem_singleton] at h
    exact absurd h (by decide)

theorem reprLine_ne_nil (l : Line) : reprLine l ≠ [] := by
  simp [reprLine]

theorem nl_split (a : List Char) : ∀ b r s : List Char, nlChar ∉ a → nlChar ∉ b →
    a ++ nlChar :: r = b ++ nlChar :: s → a = b ∧ r = s := by
  induction a with
  | nil =>
    intro b r s _ hb h
    cases b with
    | nil => simpa using h
    | cons y ys =>
      simp only [List.nil_append, List.cons_append, List.cons.injEq] at h
      exact absurd (List.mem_cons_self y ys) (by rw [← h.1] at hb ⊢; exact fun _ => hb (List.mem_cons_self _ _))
  | cons x xs ih =>
    intro b r s ha hb h
    cases b with
    | nil =>
      simp only [List.nil_append, List.cons_append, List.cons.injEq] at h
      exact absurd (h.1 ▸ List.mem_cons_self x xs) ha
    | cons y ys =>
      simp only [List.cons_append, List.cons.injEq] at h
      obtain ⟨rfl, h2⟩ := h
      have ha' : nlChar ∉ xs := fun m => ha (List.mem_cons_of_mem _ m)
      have hb' : nlChar ∉ ys := fun m => hb (List.mem_cons_of_mem _ m)
      obtain ⟨rfl, rfl⟩ := ih ys r s ha' hb' h2
      exact ⟨rfl, rfl⟩

theorem nlChar_mem_joinNl (x y : List Char) (xs : List (List Char)) :
    nlChar ∈ joinNl (x :: y :: xs) := by
  simp [joinNl]

theorem joinNl_inj : ∀ xs ys : List (List Char),
    (∀ x ∈ xs, nlChar ∉ x ∧ x ≠ []) → (∀ y ∈ ys, nlChar ∉ y ∧ y ≠ []) →
    joinNl xs = joinNl ys → xs = ys := by
  intro xs
  induction xs with
  | nil =>
    intro ys _ hy h
    cases ys with
    | nil => rfl
    | cons y ys =>
      cases ys with
      | nil =>
        exact absurd (h.symm : joinNl [y] = joinNl []) ((hy y (by simp)).2 ∘ id)
      | cons z zs =>
        have : nlChar ∈ joinNl ([] : List (List Char)) := h ▸ nlChar_mem_joinNl y z zs
        simp [joinNl] at this
  | cons x xs ih =>
    intro ys hx hy h
    cases ys with
    | nil =>
      cases xs with
      | nil => exact absurd (h : joinNl [x] = joinNl []) ((hx x (by simp)).2 ∘ id)
      | cons x2 t =>
        have : nlChar ∈ joinNl ([] : List (List Char)) := h ▸ nlChar_mem_joinNl x x2 t
        simp [joinNl] at this
    | cons y ys =>
      cases xs with
      | nil =>
        cases ys with
        | nil => rw [show joinNl [x] = x from rfl, show joinNl [y] = y from rfl] at h; rw [h]
        | cons z zs =>
          have hmem : nlChar ∈ x := by
            rw [show joinNl [x] = x from rfl] at h
            rw [h]
            exact nlChar_mem_joinNl y z zs
          exact absurd hmem (hx x (by simp)).1
      | cons x2 t =>
        cases ys with
        | nil =>
          have hmem : nlChar ∈ y := by
            rw [show joinNl [y] = y from rfl] at h
            rw [← h]
            exact nlChar_mem_joinNl x x2 t
          exact absurd hmem (hy y (by simp)).1
        | cons z zs =>
          have h' : x ++ nlChar :: joinNl (x2 :: t) = y ++ nlChar :: joinNl (z :: zs) := h
          obtain ⟨rfl, h2⟩ := nl_split x y _ _ (hx x (by simp)).1 (hy y (by simp)).1 h'
          have := ih (z :: zs) (fun a ha => hx a (List.mem_cons_of_mem _ ha))
            (fun a ha => hy a (List.mem_cons_of_mem _ ha)) h2
          rw [this]

theorem compareKey_injective : Function.Injective compareKey := by
  intro a b h
  have hmap := joinNl_inj (a.map reprLine) (b.map reprLine)
    (by
      intro x hx
      obtain ⟨l, _, rfl⟩ := List.mem_map.mp hx
      exact ⟨nlChar_not_mem_reprLine l, reprLine_ne_nil l⟩)
    (by
      intro x hx
      obtain ⟨l, _, rfl⟩ := List.mem_map.mp hx
      exact ⟨nlChar_not_mem_reprLine l, reprLine_ne_nil l⟩)
    h
  exact List.map_injective_iff.mpr reprLine_injective hmap

theorem findHeader_eq_spec (headers : List (List Line)) (current : List Line) :
    findHeader headers (compareKey current) = findHeaderSpec headers current := by
  induction headers with
  | nil => rfl
  | cons h hs ih =>
    by_cases hc : h = current
    · subst hc; simp [findHeader, findHeaderSpec]
    · have hk : compareKey h ≠ compareKey current := fun e => hc (compareKey_injective e)
      simp [findHeader, findHeaderSpec, hc, hk, ih]

/-! ### Helpers about `getD`, `set` and `flatten` -/

theorem getD_set_self {α : Type} (l : List α) (i : Nat) (v d : α)
    (h : i < l.length) : (l.set i v).getD i d = v := by
  rw [List.getD_eq_getElem?_getD, List.getElem?_set_self h]
  rfl

theorem getD_set_ne {α : Type} (l : List α) (i j : Nat) (v d : α)
    (h : i ≠ j) : (l.set i v).getD j d = l.getD j d := by
  rw [List.getD_eq_getElem?_getD, List.getElem?_set_ne h, ← List.getD_eq_getElem?_getD]

theorem getD_append_length {α : Type} (l : List α) (x d : α) :
    (l ++ [x]).getD l.length d = x := by
  rw [List.getD_eq_getElem?_getD, List.getElem?_append]
  simp

theorem getD_append_left' {α : Type} (l l' : List α) (d : α) (i : Nat)
    (h : i < l.length) : (l ++ l').getD i d = l.getD i d :=
  List.getD_append l l' d i h

theorem mem_flatten_set {α : Type} (x : α) :
    ∀ (l : List (List α)) (i : Nat) (f : α),
      x ∈ l.flatten → x ∈ (l.set i (l.getD i [] ++ [f])).flatten := by
  intro l
  induction l with
  | nil => intro i f h; simp at h
  | cons a t ih =>
    intro i f h
    cases i with
    | zero =>
      simp only [List.getD_cons_zero, List.set_cons_zero, List.flatten_cons,
        List.mem_append] at h ⊢
      rcases h with h | h
      · exact Or.inl (Or.inl h)
      · exact Or.inr h
    | succ i =>
      simp only [List.getD_cons_succ, List.set_cons_succ, List.flatten_cons,
        List.mem_append] at h ⊢
      rcases h with h | h
      · exact Or.inl h
      · exact Or.inr (ih i f h)

theorem self_mem_flatten_set {α : Type} :
    ∀ (l : List (List α)) (i : Nat) (f : α), i < l.length →
      f ∈ (l.set i (l.getD i [] ++ [f])).flatten := by
  intro l
  induction l with
  | nil => intro i f h; simp at h
  | cons a t ih =>
    intro i f h
    cases i with
    | zero => simp
    | succ i =>
      simp only [List.getD_cons_succ, List.set_cons_succ, List.flatten_cons,
        List.mem_append]
      exact Or.inr (ih i f (by simpa using h))

/-! ### Facts about `findHeader` and `assign` -/

theorem findHeader_some_lt :
    ∀ (hs : List (List Line)) (key : List Char) (i : Nat),
      findHeader hs key = some i → i < hs.length := by
  intro hs
  induction hs with
  | nil => intro key i h; simp [findHeader] at h
  | cons h t ih =>
    intro key i hf
    by_cases hc : compareKey h = key
    · simp only [findHeader, if_pos hc, Option.some.injEq] at hf
      simp only [List.length_cons]
      omega
    · simp only [findHeader, if_neg hc, Option.map_eq_some'] at hf
      obtain ⟨j, hj, rfl⟩ := hf
      have := ih key j hj
      simp only [List.length_cons]
      omega

theorem findHeader_append_some :
    ∀ (hs l : List (List Line)) (key : List Char) (i : Nat),
      findHeader hs key = some i → findHeader (hs ++ l) key = some i := by
  intro hs
  induction hs with
  | nil => intro l key i h; simp [findHeader] at h
  | cons h t ih =>
    intro l key i hf
    by_cases hc : compareKey h = key
    · simp only [findHeader, if_pos hc, Option.some.injEq] at hf
      simp only [List.cons_append, findHeader, if_pos hc, hf]
    · simp only [findHeader, if_neg hc, Option.map_eq_some'] at hf
      obtain ⟨j, hj, rfl⟩ := hf
      rw [List.cons_append]
      simp only [findHeader, if_neg hc]
      rw [ih l key j hj]
      rfl

theorem findHeader_append_new :
    ∀ (hs : List (List Line)) (c : List Line) (key : List Char),
      findHeader hs key = none → compareKey c = key →
      findHeader (hs ++ [c]) key = some hs.length := by
  intro hs
  induction hs with
  | nil =>
    intro c key _ hc
    simp [findHeader, hc]
  | cons h t ih =>
    intro c key hf hc
    have hparts : ¬ compareKey h = key ∧ findHeader t key = none := by
      by_cases hch : compareKey h = key
      · simp [findHeader, hch] at hf
      · refine ⟨hch, ?_⟩
        simp only [findHeader, if_neg hch, Option.map_eq_none'] at hf
        exact hf
    rw [List.cons_append]
    simp only [findHeader, if_neg hparts.1]
    rw [ih c key hparts.2 hc]
    simp [List.length_cons]

theorem assign_headers_cases (hs : List (List Line)) (hfs : List (List FilePath))
    (c : List Line) (f : FilePath) :
    (assign hs hfs c f).1 = hs ∨ (assign hs hfs c f).1 = hs ++ [c] := by
  unfold assign
  cases hfind : findHeader hs (compareKey c) <;> simp

theorem assign_length (hs : List (List Line)) (hfs : List (List FilePath))
    (c : List Line) (f : FilePath) (h : hs.length = hfs.length) :
    (assign hs hfs c f).1.length = (assign hs hfs c f).2.length := by
  unfold assign
  cases hfind : findHeader hs (compareKey c) <;> simp [h, List.length_set]

/-! ### Behaviour of the per-file loop -/

theorem loop_ok_out (fs : FilePath → Option (List Line)) (hl : Nat) :
    ∀ (l : List FilePath) (hs : List (List Line)) (hfs : List (List FilePath))
      (out : List Line) (cnt : Nat) (r : Outcome),
      (loop fs hl l hs hfs out cnt).2 = Except.ok r →
      (∃ e, r.headers = hs ++ e) ∧
      r.output = out ++ l.flatMap (fun f => ((fs f).getD []).drop hl) := by
  intro l
  induction l with
  | nil =>
    intro hs hfs out cnt r h
    simp only [loop, Except.ok.injEq] at h
    subst h
    exact ⟨⟨[], by simp⟩, by simp⟩
  | cons f rest ih =>
    intro hs hfs out cnt r h
    cases hfsf : fs f with
    | none => simp [loop, hfsf] at h
    | some c =>
      have hstep :
          (loop fs hl (f :: rest) hs hfs out cnt).2 =
          (loop fs hl rest
            (assign hs hfs (get_header_by_lines c hl) f).1
            (assign hs hfs (get_header_by_lines c hl) f).2
            (out ++ c.drop hl) (cnt + (c.drop hl).length)).2 := by
        simp [loop, hfsf]
      rw [hstep] at h
      obtain ⟨⟨e, he⟩, hout⟩ := ih _ _ _ _ _ h
      constructor
      · rcases assign_headers_cases hs hfs (get_header_by_lines c hl) f with ha | ha
        · exact ⟨e, by rw [he, ha]⟩
        · exact ⟨[get_header_by_lines c hl] ++ e, by rw [he, ha, List.append_assoc]⟩
      · rw [hout, List.flatMap_cons, hfsf]
        simp [List.append_assoc]

/-! ### Inverting a successful run -/

theorem combineRun_ok_auto (fs : FilePath → Option (List Line))
    (files : List FilePath) (outfile : FilePath) (r : Outcome)
    (h : (combineRun fs files outfile none).2 = Except.ok r) :
    ∃ f0 f1 rest c0 c1,
      files = f0 :: f1 :: rest ∧ fs f0 = some c0 ∧ fs f1 = some c1 ∧
      (loop fs (get_header c0 c1).length (f0 :: f1 :: rest) [get_header c0 c1]
        [[f0, f1]] (get_header c0 c1) 0).2 = Except.ok r := by
  by_cases hout : outfile ∈ files
  · simp [combineRun, hout] at h
  cases files with
  | nil => simp [combineRun, hout] at h
  | cons f0 t =>
    cases t with
    | nil =>
      have hne : ¬ outfile = f0 := by simpa using hout
      simp [combineRun, hne] at h
    | cons f1 rest =>
      cases hc0 : fs f0 with
      | none => simp [combineRun, hout, hc0] at h
      | some c0 =>
        cases hc1 : fs f1 with
        | none => simp [combineRun, hout, hc0, hc1] at h
        | some c1 =>
          refine ⟨f0, f1, rest, c0, c1, rfl, hc0, hc1, ?_⟩
          simpa [combineRun, hout, hc0, hc1, initHeaderFiles] using h

theorem combineRun_ok_forced (fs : FilePath → Option (List Line))
    (files : List FilePath) (outfile : FilePath) (n : Nat) (r : Outcome)
    (h : (combineRun fs files outfile (some n)).2 = Except.ok r) :
    ∃ f0 f1 rest c0,
      files = f0 :: f1 :: rest ∧ fs f0 = some c0 ∧
      (loop fs (get_header_by_lines c0 n).length (f0 :: f1 :: rest)
        [get_header_by_lines c0 n] [[f0]] (get_header_by_lines c0 n) 0).2 =
        Except.ok r := by
  by_cases hout : outfile ∈ files
  · simp [combineRun, hout] at h
  cases files with
  | nil => simp [combineRun, hout] at h
  | cons f0 t =>
    cases t with
    | nil =>
      have hne : ¬ outfile = f0 := by simpa using hout
      simp [combineRun, hne] at h
    | cons f1 rest =>
      cases hc0 : fs f0 with
      | none => simp [combineRun, hout, hc0] at h
      | some c0 =>
        refine ⟨f0, f1, rest, c0, rfl, hc0, ?_⟩
        simpa [combineRun, hout, hc0, initHeaderFiles] using h

/-! ### Claim theorems -/

/-- C1: for every successful run of `combine`, the bytes of the output file
equal the canonical header's lines written in order, followed by the
concatenation, in input-file order, of each input file's lines strictly
after position `header_length` (the canonical variant's length). -/
theorem combine_output_bytes (fs : FilePath → Option (List Line))
    (files : List FilePath) (outfile : FilePath) (force : Option Nat) (r : Outcome)
    (h : (combineRun fs files outfile force).2 = Except.ok r) :
    r.output.flatten =
      (r.headers.headD []).flatten ++
      (files.flatMap
        (fun f => ((fs f).getD []).drop (r.headers.headD []).length)).flatten := by
  cases force with
  | none =>
    obtain ⟨f0, f1, rest, c0, c1, hfiles, hc0, hc1, hloop⟩ :=
      combineRun_ok_auto fs files outfile r h
    obtain ⟨⟨e, he⟩, hout⟩ := loop_ok_out fs (get_header c0 c1).length _ _ _ _ _ _ hloop
    have hhead : r.headers.headD [] = get_header c0 c1 := by rw [he]; rfl
    rw [hhead, hfiles, hout, List.flatten_append]
  | some n =>
    obtain ⟨f0, f1, rest, c0, hfiles, hc0, hloop⟩ :=
      combineRun_ok_forced fs files outfile n r h
    obtain ⟨⟨e, he⟩, hout⟩ :=
      loop_ok_out fs (get_header_by_lines c0 n).length _ _ _ _ _ _ hloop
    have hhead : r.headers.headD [] = get_header_by_lines c0 n := by rw [he]; rfl
    rw [hhead, hfiles, hout, List.flatten_append]

/-- C2: `combine` raises a `ReaderError` and performs no file operation at
all (the event trace is empty, so the output file is neither created nor
modified) whenever `outfile` is one of the input files or the input list
has fewer than two entries; both checks precede any open-for-writing. -/
theorem combine_precondition_rejects (fs : FilePath → Option (List Line))
    (files : List FilePath) (outfile : FilePath) (force : Option Nat)
    (h : outfile ∈ files ∨ files.length < 2) :
    ∃ e : ReaderError,
      combineRun fs files outfile force =
        ([], Except.error (CombineError.readerError e)) := by
  by_cases hout : outfile ∈ files
  · exact ⟨ReaderError.outfileIsInput, by simp [combineRun, hout]⟩
  · have hlen : files.length < 2 := h.resolve_left hout
    refine ⟨ReaderError.notEnoughFiles, ?_⟩
    cases files with
    | nil => simp [combineRun]
    | cons f t =>
      cases t with
      | nil =>
        have hne : ¬ outfile = f := by simpa using hout
        simp [combineRun, hne]
      | cons f1 t2 => simp at hlen; omega

/-- Reading with a fixed line count always yields exactly that many
entries: the file's lines first, then one empty line for every `readline`
past the end of the file. -/
theorem get_header_by_lines_eq (c : List Line) :
    ∀ k, get_header_by_lines c k = c.take k ++ List.replicate (k - c.length) [] := by
  induction c with
  | nil =>
    intro k
    simp only [get_header_by_lines, List.getD_nil, List.take_nil, List.length_nil,
      Nat.sub_zero, List.nil_append, List.map_const', List.length_range]
  | cons a t ih =>
    intro k
    cases k with
    | zero => simp [get_header_by_lines]
    | succ k =>
      simp only [get_header_by_lines, List.range_succ_eq_map, List.map_cons,
        List.map_map, List.getD_cons_zero]
      have hmap : (List.range k).map ((fun i => (a :: t).getD i []) ∘ (· + 1)) =
          (List.range k).map (fun i => t.getD i []) := by
        apply List.map_congr_left
        intro i _
        rfl
      rw [hmap]
      have := ih k
      simp only [get_header_by_lines] at this
      rw [this, List.take_succ_cons, List.length_cons, Nat.succ_sub_succ]
      rfl

theorem get_header_by_lines_length (c : List Line) (k : Nat) :
    (get_header_by_lines c k).length = k := by
  simp [get_header_by_lines]

/-- C3, counterexample: a one-line file read with a forced count of 2 yields
a two-element sequence whose second entry is the empty line, not a sequence
with fewer elements. -/
theorem short_header_read_is_padded :
    get_header_by_lines [['a', nlChar]] 2 = [['a', nlChar], []] ∧
    ¬ (get_header_by_lines [['a', nlChar]] 2).length < 2 := by decide

/-- C3, amended: for a file with fewer lines than the requested count, the
header read yields a sequence of exactly the requested length — the lines
actually present followed by empty lines for the reads past end of file —
rather than a shorter sequence. -/
theorem short_header_read_padded_shape (c : List Line) (k : Nat) :
    get_header_by_lines c k = c.take k ++ List.replicate (k - c.length) [] ∧
    (get_header_by_lines c k).length = k :=
  ⟨get_header_by_lines_eq c k, get_header_by_lines_length c k⟩

/-- C5: in auto-detect mode the header is computed from one leading line of
each comparison file (the head of its line list, empty for an empty file):
if the two lines are byte-for-byte identical the variant is the one-element
sequence holding that line, otherwise it is empty, so its length — the
run's `header_length` — is always 0 or 1. -/
theorem get_header_auto (c1 c2 : List Line) :
    (c1.headD [] = c2.headD [] → get_header c1 c2 = [c1.headD []]) ∧
    (c1.headD [] ≠ c2.headD [] → get_header c1 c2 = []) ∧
    (get_header c1 c2).length ≤ 1 := by
  refine ⟨?_, ?_, ?_⟩
  · intro h
    show (if c1.headD [] = c2.headD [] then [c1.headD []] else []) = [c1.headD []]
    rw [if_pos h]
  · intro h
    show (if c1.headD [] = c2.headD [] then [c1.headD []] else []) = []
    rw [if_neg h]
  · show (if c1.headD [] = c2.headD [] then [c1.headD []] else []).length ≤ 1
    by_cases h : c1.headD [] = c2.headD []
    · rw [if_pos h]; simp
    · rw [if_neg h]; simp

/-- C6: the repr-string comparison the source uses to file each input under
a header group coincides with exact element-wise sequence equality: the
first-match search and the whole assignment step equal their
structural-equality counterparts written from the spec. -/
theorem assign_matches_spec (hs : List (List Line)) (hfs : List (List FilePath))
    (c : List Line) (f : FilePath) :
    findHeader hs (compareKey c) = findHeaderSpec hs c ∧
    assign hs hfs c f = assignSpec hs hfs c f := by
  refine ⟨findHeader_eq_spec hs c, ?_⟩
  unfold assign assignSpec
  rw [findHeader_eq_spec]

/-! ### Group 0 keeps its initial members -/

theorem getD_zero_headD {α : Type} (l : List α) (d : α) : l.getD 0 d = l.headD d := by
  cases l <;> rfl

theorem assign_hfs_head (hs : List (List Line)) (hfs : List (List FilePath))
    (c : List Line) (f : FilePath) (hne : 0 < hfs.length) :
    0 < (assign hs hfs c f).2.length ∧
    ∃ d, (assign hs hfs c f).2.headD [] = hfs.headD [] ++ d := by
  unfold assign
  cases hfind : findHeader hs (compareKey c) with
  | none =>
    refine ⟨by simp, [], ?_⟩
    cases hfs with
    | nil => simp at hne
    | cons a t => simp
  | some i =>
    cases i with
    | zero =>
      cases hfs with
      | nil => simp at hne
      | cons a t => exact ⟨by simp, [f], by simp⟩
    | succ i =>
      cases hfs with
      | nil => simp at hne
      | cons a t => exact ⟨by simp, [], by simp⟩

theorem loop_ok_group0 (fs : FilePath → Option (List Line)) (hl : Nat) :
    ∀ (l : List FilePath) (hs : List (List Line)) (hfs : List (List FilePath))
      (out : List Line) (cnt : Nat) (r : Outcome),
      (loop fs hl l hs hfs out cnt).2 = Except.ok r →
      0 < hfs.length →
      ∃ ext, r.header_files.headD [] = hfs.headD [] ++ ext := by
  intro l
  induction l with
  | nil =>
    intro hs hfs out cnt r h hne
    simp only [loop, Except.ok.injEq] at h
    subst h
    exact ⟨[], by simp⟩
  | cons f rest ih =>
    intro hs hfs out cnt r h hne
    cases hfsf : fs f with
    | none => simp [loop, hfsf] at h
    | some c =>
      have hstep :
          (loop fs hl (f :: rest) hs hfs out cnt).2 =
          (loop fs hl rest
            (assign hs hfs (get_header_by_lines c hl) f).1
            (assign hs hfs (get_header_by_lines c hl) f).2
            (out ++ c.drop hl) (cnt + (c.drop hl).length)).2 := by
        simp [loop, hfsf]
      rw [hstep] at h
      obtain ⟨hpos, d, hd⟩ := assign_hfs_head hs hfs (get_header_by_lines c hl) f hne
      obtain ⟨ext, hext⟩ := ih _ _ _ _ _ h hpos
      exact ⟨d ++ ext, by rw [hext, hd, List.append_assoc]⟩

/-- C4, counterexample: with a forced header length the group list is not
initialized with an empty file set — `files[0]` is pre-assigned to group 0,
which is also observable in the final group membership of a concrete run,
where "a" appears twice (once from initialization, once from the per-file
pass). -/
theorem forced_init_group_not_empty :
    initHeaderFiles "a" "b" (some 1) = [["a"]] ∧
    initHeaderFiles "a" "b" (some 1) ≠ [[]] ∧
    (combineRun fsEx1 ["a", "b"] "o" (some 1)).2 =
      Except.ok ⟨[[['h']]], [["a", "a", "b"]], [['h'], ['1'], ['2']], 2⟩ := by
  refine ⟨rfl, by decide, by decide⟩

/-- C4, amended: the group list is initialized as a single group holding
the canonical variant, with file list `[files[0], files[1]]` in auto-detect
mode and with the one-element file list `[files[0]]` (not an empty set)
when a forced length is used; in every successful run the final group 0
membership list extends that initial list. -/
theorem initial_groups (fs : FilePath → Option (List Line)) (f0 f1 : FilePath)
    (rest : List FilePath) (outfile : FilePath) (force : Option Nat) (r : Outcome)
    (h : (combineRun fs (f0 :: f1 :: rest) outfile force).2 = Except.ok r) :
    initHeaderFiles f0 f1 none = [[f0, f1]] ∧
    (∀ n : Nat, initHeaderFiles f0 f1 (some n) = [[f0]]) ∧
    ∃ ext, r.header_files.headD [] = (initHeaderFiles f0 f1 force).headD [] ++ ext := by
  refine ⟨rfl, fun n => rfl, ?_⟩
  cases force with
  | none =>
    obtain ⟨g0, g1, rest', c0, c1, hfiles, hc0, hc1, hloop⟩ :=
      combineRun_ok_auto fs _ outfile r h
    have hinj : f0 = g0 ∧ f1 = g1 ∧ rest = rest' := by
      simpa [List.cons.injEq] using hfiles
    obtain ⟨rfl, rfl, rfl⟩ := hinj
    obtain ⟨ext, hext⟩ := loop_ok_group0 fs (get_header c0 c1).length _ _ _ _ _ _
      hloop (by simp)
    exact ⟨ext, by simpa [initHeaderFiles] using hext⟩
  | some n =>
    obtain ⟨g0, g1, rest', c0, hfiles, hc0, hloop⟩ :=
      combineRun_ok_forced fs _ outfile n r h
    have hinj : f0 = g0 ∧ f1 = g1 ∧ rest = rest' := by
      simpa [List.cons.injEq] using hfiles
    obtain ⟨rfl, rfl, rfl⟩ := hinj
    obtain ⟨ext, hext⟩ := loop_ok_group0 fs (get_header_by_lines c0 n).length _ _ _ _ _ _
      hloop (by simp)
    exact ⟨ext, by simpa [initHeaderFiles] using hext⟩

/-! ### The groups partition the input files -/

theorem mem_flatten_set_elim {α : Type} (x : α) :
    ∀ (l : List (List α)) (i : Nat) (f : α),
      x ∈ (l.set i (l.getD i [] ++ [f])).flatten → x ∈ l.flatten ∨ x = f := by
  intro l
  induction l with
  | nil => intro i f h; simp at h
  | cons a t ih =>
    intro i f h
    cases i with
    | zero =>
      simp only [List.getD_cons_zero, List.set_cons_zero, List.flatten_cons,
        List.mem_append] at h
      simp only [List.flatten_cons, List.mem_append]
      rcases h with (h | h) | h
      · exact Or.inl (Or.inl h)
      · exact Or.inr (by simpa using h)
      · exact Or.inl (Or.inr h)
    | succ i =>
      simp only [List.getD_cons_succ, List.set_cons_succ, List.flatten_cons,
        List.mem_append] at h
      simp only [List.flatten_cons, List.mem_append]
      rcases h with h | h
      · exact Or.inl (Or.inl h)
      · rcases ih i f h with h | h
        · exact Or.inl (Or.inr h)
        · exact Or.inr h

theorem assign_preserves (hs : List (List Line)) (hfs : List (List FilePath))
    (cur : List Line) (f : FilePath) (cand : FilePath → List Line)
    (hcur : cand f = cur) (hlen : hs.length = hfs.length)
    (J : ∀ i g, g ∈ hfs.getD i [] → findHeader hs (compareKey (cand g)) = some i) :
    (assign hs hfs cur f).1.length = (assign hs hfs cur f).2.length ∧
    (∀ i g, g ∈ (assign hs hfs cur f).2.getD i [] →
      findHeader (assign hs hfs cur f).1 (compareKey (cand g)) = some i) ∧
    (∀ x, x ∈ (assign hs hfs cur f).2.flatten → x ∈ hfs.flatten ∨ x = f) ∧
    (∀ x, x ∈ hfs.flatten → x ∈ (assign hs hfs cur f).2.flatten) ∧
    f ∈ (assign hs hfs cur f).2.flatten := by
  cases hfind : findHeader hs (compareKey cur) with
  | some m =>
    have hm : m < hfs.length := hlen ▸ findHeader_some_lt hs _ m hfind
    have hassign : assign hs hfs cur f = (hs, hfs.set m (hfs.getD m [] ++ [f])) := by
      unfold assign; rw [hfind]
    rw [hassign]
    refine ⟨by simp [hlen, List.length_set], ?_, ?_, ?_, ?_⟩
    · intro i g hg
      by_cases him : i = m
      · subst him
        rw [getD_set_self hfs i _ [] (hlen ▸ findHeader_some_lt hs _ i hfind)] at hg
        rcases List.mem_append.mp hg with hg | hg
        · exact J i g hg
        · have hgf : g = f := by simpa using hg
          subst hgf
          rw [hcur]
          exact hfind
      · rw [getD_set_ne hfs m i _ [] (fun e => him e.symm)] at hg
        exact J i g hg
    · intro x hx
      exact mem_flatten_set_elim x hfs m f hx
    · intro x hx
      exact mem_flatten_set x hfs m f hx
    · exact self_mem_flatten_set hfs m f hm
  | none =>
    have hassign : assign hs hfs cur f = (hs ++ [cur], hfs ++ [[f]]) := by
      unfold assign; rw [hfind]
    rw [hassign]
    refine ⟨by simp [hlen], ?_, ?_, ?_, ?_⟩
    · intro i g hg
      rcases Nat.lt_trichotomy i hfs.length with hi | hi | hi
      · rw [getD_append_left' hfs [[f]] [] i hi] at hg
        exact findHeader_append_some hs [cur] _ i (J i g hg)
      · rw [hi, getD_append_length] at hg
        have hgf : g = f := by simpa using hg
        subst hgf
        rw [hcur, hi, ← hlen]
        exact findHeader_append_new hs cur _ hfind rfl
      · have hnil : (hfs ++ [[f]]).getD i [] = [] :=
          List.getD_eq_default _ _ (by simp; omega)
        rw [hnil] at hg
        simp at hg
    · intro x hx
      rw [List.flatten_append] at hx
      rcases List.mem_append.mp hx with hx | hx
      · exact Or.inl hx
      · exact Or.inr (by simpa using hx)
    · intro x hx
      rw [List.flatten_append]
      exact List.mem_append_left _ hx
    · rw [List.flatten_append]
      apply List.mem_append_right
      simp

theorem loop_ok_partition (fs : FilePath → Option (List Line)) (hl : Nat) :
    ∀ (l : List FilePath) (hs : List (List Line)) (hfs : List (List FilePath))
      (out : List Line) (cnt : Nat) (r : Outcome),
      (loop fs hl l hs hfs out cnt).2 = Except.ok r →
      hs.length = hfs.length →
      (∀ i g, g ∈ hfs.getD i [] →
        findHeader hs (compareKey (candOf fs hl g)) = some i) →
      (∀ i g, g ∈ r.header_files.getD i [] →
        findHeader r.headers (compareKey (candOf fs hl g)) = some i) ∧
      (∀ x, x ∈ r.header_files.flatten → x ∈ hfs.flatten ∨ x ∈ l) ∧
      (∀ x, x ∈ hfs.flatten → x ∈ r.header_files.flatten) ∧
      (∀ x, x ∈ l → x ∈ r.header_files.flatten) := by
  intro l
  induction l with
  | nil =>
    intro hs hfs out cnt r h hlen J
    simp only [loop, Except.ok.injEq] at h
    subst h
    exact ⟨J, fun x hx => Or.inl hx, fun x hx => hx,
      fun x hx => absurd hx (List.not_mem_nil x)⟩
  | cons f rest ih =>
    intro hs hfs out cnt r h hlen J
    cases hfsf : fs f with
    | none => simp [loop, hfsf] at h
    | some c =>
      have hstep :
          (loop fs hl (f :: rest) hs hfs out cnt).2 =
          (loop fs hl rest
            (assign hs hfs (get_header_by_lines c hl) f).1
            (assign hs hfs (get_header_by_lines c hl) f).2
            (out ++ c.drop hl) (cnt + (c.drop hl).length)).2 := by
        simp [loop, hfsf]
      rw [hstep] at h
      have hcand : candOf fs hl f = get_header_by_lines c hl := by
        unfold candOf; rw [hfsf]; rfl
      obtain ⟨hlen', J', hmemTo, hmemFrom, hfmem⟩ :=
        assign_preserves hs hfs (get_header_by_lines c hl) f (candOf fs hl) hcand hlen J
      obtain ⟨Jf, hTo, hFrom, hAll⟩ := ih _ _ _ _ _ h hlen' J'
      refine ⟨Jf, ?_, ?_, ?_⟩
      · intro x hx
        rcases hTo x hx with hx | hx
        · rcases hmemTo x hx with hx | hx
          · exact Or.inl hx
          · exact Or.inr (by simp [hx])
        · exact Or.inr (List.mem_cons_of_mem f hx)
      · intro x hx
        exact hFrom x (hmemFrom x hx)
      · intro x hx
        rcases List.mem_cons.mp hx with rfl | hx
        · exact hFrom x hfmem
        · exact hAll x hx

theorem get_header_cases (c0 c1 : List Line) :
    (c0.headD [] = c1.headD [] ∧ get_header c0 c1 = [c0.headD []]) ∨
    (c0.headD [] ≠ c1.headD [] ∧ get_header c0 c1 = []) := by
  by_cases h : c0.headD [] = c1.headD []
  · refine Or.inl ⟨h, ?_⟩
    show (if c0.headD [] = c1.headD [] then [c0.headD []] else []) = [c0.headD []]
    rw [if_pos h]
  · refine Or.inr ⟨h, ?_⟩
    show (if c0.headD [] = c1.headD [] then [c0.headD []] else []) = []
    rw [if_neg h]

theorem get_header_by_lines_one (c : List Line) :
    get_header_by_lines c 1 = [c.headD []] := by
  show [c.getD 0 []] = [c.headD []]
  rw [getD_zero_headD]

theorem findHeader_singleton_self (h0 : List Line) :
    findHeader [h0] (compareKey h0) = some 0 := by
  simp [findHeader]

/-- C7: after every successful run of `combine`, every input file belongs
to exactly one group: a path is a member of some group's file list iff it
is one of the input files, and no path is a member of two groups with
distinct indices. -/
theorem combine_partition (fs : FilePath → Option (List Line))
    (files : List FilePath) (outfile : FilePath) (force : Option Nat) (r : Outcome)
    (h : (combineRun fs files outfile force).2 = Except.ok r) :
    (∀ x, x ∈ r.header_files.flatten ↔ x ∈ files) ∧
    (∀ i j, i ≠ j → ∀ x, x ∈ r.header_files.getD i [] →
      x ∉ r.header_files.getD j []) := by
  cases force with
  | none =>
    obtain ⟨f0, f1, rest, c0, c1, hfiles, hc0, hc1, hloop⟩ :=
      combineRun_ok_auto fs files outfile r h
    subst hfiles
    have hJ : ∀ i g, g ∈ ([[f0, f1]] : List (List FilePath)).getD i [] →
        findHeader [get_header c0 c1]
          (compareKey (candOf fs (get_header c0 c1).length g)) = some i := by
      intro i g hg
      cases i with
      | zero =>
        have hg2 : g = f0 ∨ g = f1 := by simpa using hg
        have hcand : candOf fs (get_header c0 c1).length g = get_header c0 c1 := by
          rcases get_header_cases c0 c1 with ⟨heq, hh⟩ | ⟨-, hh⟩
          · rcases hg2 with rfl | rfl
            · unfold candOf
              rw [hc0, hh]
              exact get_header_by_lines_one c0
            · unfold candOf
              rw [hc1, hh]
              show get_header_by_lines c1 1 = [c0.headD []]
              rw [get_header_by_lines_one c1, heq]
          · rcases hg2 with rfl | rfl
            · unfold candOf
              rw [hc0, hh]
              rfl
            · unfold candOf
              rw [hc1, hh]
              rfl
        rw [hcand]
        exact findHeader_singleton_self _
      | succ i =>
        have hnil : ([[f0, f1]] : List (List FilePath)).getD (i + 1) [] = [] :=
          List.getD_eq_default _ _ (by simp)
        rw [hnil] at hg
        simp at hg
    obtain ⟨Jf, hTo, hFrom, hAll⟩ :=
      loop_ok_partition fs (get_header c0 c1).length _ _ _ _ _ _ hloop (by simp) hJ
    refine ⟨?_, ?_⟩
    · intro x
      constructor
      · intro hx
        rcases hTo x hx with hx | hx
        · have hx2 : x = f0 ∨ x = f1 := by simpa using hx
          rcases hx2 with rfl | rfl
          · exact List.mem_cons_self _ _
          · exact List.mem_cons_of_mem _ (List.mem_cons_self _ _)
        · exact hx
      · intro hx
        exact hAll x hx
    · intro i j hij x hxi hxj
      have h1 := Jf i x hxi
      have h2 := Jf j x hxj
      rw [h1] at h2
      exact hij (Option.some.inj h2)
  | some n =>
    obtain ⟨f0, f1, rest, c0, hfiles, hc0, hloop⟩ :=
      combineRun_ok_forced fs files outfile n r h
    subst hfiles
    have hJ : ∀ i g, g ∈ ([[f0]] : List (List FilePath)).getD i [] →
        findHeader [get_header_by_lines c0 n]
          (compareKey (candOf fs (get_header_by_lines c0 n).length g)) = some i := by
      intro i g hg
      cases i with
      | zero =>
        have hg2 : g = f0 := by simpa using hg
        subst hg2
        have hcand : candOf fs (get_header_by_lines c0 n).length g =
            get_header_by_lines c0 n := by
          unfold candOf
          rw [hc0]
          show get_header_by_lines c0 (get_header_by_lines c0 n).length =
            get_header_by_lines c0 n
          rw [get_header_by_lines_length c0 n]
        rw [hcand]
        exact findHeader_singleton_self _
      | succ i =>
        have hnil : ([[f0]] : List (List FilePath)).getD (i + 1) [] = [] :=
          List.getD_eq_default _ _ (by simp)
        rw [hnil] at hg
        simp at hg
    obtain ⟨Jf, hTo, hFrom, hAll⟩ :=
      loop_ok_partition fs (get_header_by_lines c0 n).length _ _ _ _ _ _ hloop
        (by simp) hJ
    refine ⟨?_, ?_⟩
    · intro x
      constructor
      · intro hx
        rcases hTo x hx with hx | hx
        · have hx2 : x = f0 := by simpa using hx
          subst hx2
          exact List.mem_cons_self _ _
        · exact hx
      · intro hx
        exact hAll x hx
    · intro i j hij x hxi hxj
      have h1 := Jf i x hxi
      have h2 := Jf j x hxj
      rw [h1] at h2
      exact hij (Option.some.inj h2)

/-! ### Determinism, faults during header determination, glob resolution -/

theorem loop_congr (fs1 fs2 : FilePath → Option (List Line)) (hl : Nat) :
    ∀ (l : List FilePath) (hs : List (List Line)) (hfs : List (List FilePath))
      (out : List Line) (cnt : Nat),
      (∀ f ∈ l, fs1 f = fs2 f) →
      loop fs1 hl l hs hfs out cnt = loop fs2 hl l hs hfs out cnt := by
  intro l
  induction l with
  | nil => intro hs hfs out cnt _; rfl
  | cons f rest ih =>
    intro hs hfs out cnt hagree
    have hf : fs1 f = fs2 f := hagree f (List.mem_cons_self f rest)
    have hrest : ∀ g ∈ rest, fs1 g = fs2 g :=
      fun g hg => hagree g (List.mem_cons_of_mem f hg)
    cases hf2 : fs2 f with
    | none => simp [loop, hf, hf2]
    | some c =>
      simp only [loop, hf, hf2]
      rw [ih _ _ _ _ hrest]

/-- C8: `combine` is deterministic: two runs over file systems that hold
identical contents for every file in the input list, with the same file
list, output path and forced-length setting, produce the very same result
— in particular byte-identical output. -/
theorem combine_deterministic (fs1 fs2 : FilePath → Option (List Line))
    (files : List FilePath) (outfile : FilePath) (force : Option Nat)
    (h : ∀ f ∈ files, fs1 f = fs2 f) :
    combineRun fs1 files outfile force = combineRun fs2 files outfile force := by
  by_cases hout : outfile ∈ files
  · simp [combineRun, hout]
  cases files with
  | nil => rfl
  | cons f0 t =>
    cases t with
    | nil => rfl
    | cons f1 rest =>
      have h0 : fs1 f0 = fs2 f0 := h f0 (by simp)
      have h1 : fs1 f1 = fs2 f1 := h f1 (by simp)
      cases force with
      | none =>
        cases hc0 : fs2 f0 with
        | none => simp [combineRun, hout, h0, hc0]
        | some c0 =>
          cases hc1 : fs2 f1 with
          | none => simp [combineRun, hout, h0, h1, hc0, hc1]
          | some c1 =>
            simp only [combineRun, if_neg hout, h0, h1, hc0, hc1]
            rw [loop_congr fs1 fs2 _ _ _ _ _ _ h]
      | some n =>
        cases hc0 : fs2 f0 with
        | none => simp [combineRun, hout, h0, hc0]
        | some c0 =>
          simp only [combineRun, if_neg hout, h0, hc0]
          rw [loop_congr fs1 fs2 _ _ _ _ _ _ h]

/-- C9: the output file is opened only after header determination; if
opening `files[0]` (or, in auto-detect mode, `files[1]`) for the header
read faults, the run aborts with an error and its event trace contains no
open-for-writing of any file, so the output file is neither created nor
truncated. -/
theorem combine_header_fault_no_write (fs : FilePath → Option (List Line))
    (f0 f1 : FilePath) (rest : List FilePath) (outfile : FilePath)
    (force : Option Nat)
    (h : fs f0 = none ∨ (force = none ∧ fs f1 = none)) :
    (∃ e, (combineRun fs (f0 :: f1 :: rest) outfile force).2 = Except.error e) ∧
    ∀ g, Event.openWrite g ∉ (combineRun fs (f0 :: f1 :: rest) outfile force).1 := by
  by_cases hout : outfile ∈ f0 :: f1 :: rest
  · exact ⟨⟨CombineError.readerError ReaderError.outfileIsInput,
      by simp [combineRun, hout]⟩, fun g => by simp [combineRun, hout]⟩
  cases force with
  | some n =>
    rcases h with hf0 | ⟨hforce, -⟩
    · exact ⟨⟨CombineError.ioError f0, by simp [combineRun, hout, hf0]⟩,
        fun g => by simp [combineRun, hout, hf0]⟩
    · exact absurd hforce (by simp)
  | none =>
    rcases h with hf0 | ⟨-, hf1⟩
    · exact ⟨⟨CombineError.ioError f0, by simp [combineRun, hout, hf0]⟩,
        fun g => by simp [combineRun, hout, hf0]⟩
    · cases hc0 : fs f0 with
      | none =>
        exact ⟨⟨CombineError.ioError f0, by simp [combineRun, hout, hc0]⟩,
          fun g => by simp [combineRun, hout, hc0]⟩
      | some c0 =>
        exact ⟨⟨CombineError.ioError f1, by simp [combineRun, hout, hc0, hf1]⟩,
          fun g => by simp [combineRun, hout, hc0, hf1]⟩

/-- C10, counterexample: when glob expansion resolves the input list to the
single existing file that is also the output path, `combine` raises the
output-collision `ReaderError`, not the minimum-file-count one the claim
names. -/
theorem glob_drop_collision_error :
    get_files globEx ["missing.csv", "out.csv"] = ["out.csv"] ∧
    (get_files globEx ["missing.csv", "out.csv"]).length < 2 ∧
    combineGlob fsNone globEx ["missing.csv", "out.csv"] "out.csv" none =
      ([], Except.error (CombineError.readerError ReaderError.outfileIsInput)) ∧
    ReaderError.outfileIsInput ≠ ReaderError.notEnoughFiles := by
  refine ⟨by decide, by decide, by decide, by decide⟩

/-- C10, amended: `combine` glob-expands its patterns, so a pattern that
matches no existing file is silently dropped (no I/O fault); if the drops
leave fewer than two files and the output path is not among the remaining
files, `combine` raises the minimum-file-count `ReaderError` without
performing any file operation (when the output path is among them, the
output-collision error takes precedence instead). -/
theorem glob_drop_min_count (fs : FilePath → Option (List Line))
    (globFn : String → List FilePath) (ps1 ps2 : List String) (p : String)
    (outfile : FilePath) (force : Option Nat)
    (hp : globFn p = []) :
    get_files globFn (ps1 ++ p :: ps2) = get_files globFn (ps1 ++ ps2) ∧
    (outfile ∉ get_files globFn (ps1 ++ p :: ps2) →
      (get_files globFn (ps1 ++ p :: ps2)).length < 2 →
      combineGlob fs globFn (ps1 ++ p :: ps2) outfile force =
        ([], Except.error (CombineError.readerError ReaderError.notEnoughFiles))) := by
  have hdrop : get_files globFn (ps1 ++ p :: ps2) = get_files globFn (ps1 ++ ps2) := by
    unfold get_files
    congr 1
    rw [List.flatMap_append, List.flatMap_cons, List.flatMap_append]
    simp [hp, sortPaths]
  refine ⟨hdrop, ?_⟩
  intro hout hlen
  unfold combineGlob
  cases hfl : get_files globFn (ps1 ++ p :: ps2) with
  | nil => simp [combineRun]
  | cons a t =>
    rw [hfl] at hout hlen
    cases t with
    | nil =>
      have hne : ¬ outfile = a := by simpa using hout
      simp [combineRun, hne]
    | cons b t2 =>
      exfalso
      simp at hlen
      omega

/-! ### Witnesses: the theorems with hypotheses evaluated at concrete runs -/

/-- Witness for C1 at a concrete auto-detect run over `fsEx1`. -/
theorem combine_output_bytes_witness :
    (combineRun fsEx1 ["a", "b"] "o" none).2 = Except.ok outEx1 ∧
    outEx1.output.flatten = (outEx1.headers.headD []).flatten ++
      (["a", "b"].flatMap
        (fun f => ((fsEx1 f).getD []).drop (outEx1.headers.headD []).length)).flatten :=
  ⟨by decide, combine_output_bytes fsEx1 ["a", "b"] "o" none outEx1 (by decide)⟩

/-- Witness for C2: combining into one of the inputs is rejected. -/
theorem combine_precondition_rejects_witness :
    (("a" : FilePath) ∈ ["a", "b"] ∨ (["a", "b"] : List FilePath).length < 2) ∧
    ∃ e : ReaderError, combineRun fsEx1 ["a", "b"] "a" none =
      ([], Except.error (CombineError.readerError e)) :=
  ⟨Or.inl (by decide),
    combine_precondition_rejects fsEx1 ["a", "b"] "a" none (Or.inl (by decide))⟩

/-- Witness for C4 at a concrete forced-length run over `fsEx1`. -/
theorem initial_groups_witness :
    (combineRun fsEx1 ["a", "b"] "o" (some 1)).2 = Except.ok outEx4 ∧
    (initHeaderFiles "a" "b" none = [["a", "b"]] ∧
      (∀ n : Nat, initHeaderFiles "a" "b" (some n) = [["a"]]) ∧
      ∃ ext, outEx4.header_files.headD [] =
        (initHeaderFiles "a" "b" (some 1)).headD [] ++ ext) :=
  ⟨by decide, initial_groups fsEx1 "a" "b" [] "o" (some 1) outEx4 (by decide)⟩

/-- Witness for C5: identical first lines yield the one-line header. -/
theorem get_header_auto_witness :
    ([['h'], ['1']] : List Line).headD [] = ([['h'], ['2']] : List Line).headD [] ∧
    get_header [['h'], ['1']] [['h'], ['2']] = [['h']] :=
  ⟨by decide, (get_header_auto [['h'], ['1']] [['h'], ['2']]).1 (by decide)⟩

/-- Witness for C7 at a concrete auto-detect run over `fsEx1`. -/
theorem combine_partition_witness :
    (combineRun fsEx1 ["a", "b"] "o" none).2 = Except.ok outEx1 ∧
    ("a" ∈ outEx1.header_files.flatten ↔ ("a" : FilePath) ∈ ["a", "b"]) ∧
    ("a" : FilePath) ∉ outEx1.header_files.getD 1 [] := by
  have h := combine_partition fsEx1 ["a", "b"] "o" none outEx1 (by decide)
  exact ⟨by decide, h.1 "a", h.2 0 1 (by decide) "a" (by decide)⟩

/-- Witness for C8: two file systems agreeing on the inputs give the same
run. -/
theorem combine_deterministic_witness :
    (∀ f ∈ (["a", "b"] : List FilePath), fsEx1 f = fsEx2 f) ∧
    combineRun fsEx1 ["a", "b"] "o" none = combineRun fsEx2 ["a", "b"] "o" none :=
  ⟨by decide,
    combine_deterministic fsEx1 fsEx2 ["a", "b"] "o" none (by decide)⟩

/-- Witness for C9: a faulting header read aborts before any write-open. -/
theorem combine_header_fault_no_write_witness :
    (fsNone "a" = none ∨ ((none : Option Nat) = none ∧ fsNone "b" = none)) ∧
    (∃ e, (combineRun fsNone ["a", "b"] "o" none).2 = Except.error e) ∧
    Event.openWrite "o" ∉ (combineRun fsNone ["a", "b"] "o" none).1 := by
  have h := combine_header_fault_no_write fsNone "a" "b" [] "o" none (Or.inl rfl)
  exact ⟨Or.inl rfl, h.1, h.2 "o"⟩

/-- Witness for C10: the unmatched pattern is dropped and the short list is
rejected with the minimum-file-count error. -/
theorem glob_drop_min_count_witness :
    globEx "missing.csv" = [] ∧
    get_files globEx ["missing.csv", "out.csv"] = get_files globEx ["out.csv"] ∧
    combineGlob fsNone globEx ["missing.csv", "out.csv"] "o" none =
      ([], Except.error (CombineError.readerError ReaderError.notEnoughFiles)) := by
  have h := glob_drop_min_count fsNone globEx [] ["out.csv"] "missing.csv" "o" none
    (by decide)
  exact ⟨by decide, h.1, h.2 (by decide) (by decide)⟩

end CsvCombine
